import Mathlib

/-!
Shallow embedding of the Kit-to-Catalog Matching & Video Ranking Engine
(`demo_app/app.py`): normalization helpers, catalog/content loading, fuzzy
kit-to-catalog matching, video ranking, and complementary-item resolution.

Strings are modelled as `List Char` (`Str`). Machine floats are modelled as
exact rationals (`ℚ`); a missing / NaN numeric value is `Option.none`.
Case mapping is modelled on the ASCII range (Lean's `Char.toLower`), the
range exercised by the data formats involved.
-/

/-- A Python `str` is modelled as a list of characters. -/
abbrev Str := List Char

/-- The whitespace class of Python's `re` module pattern `\s` on `str`
(which also drives `str.strip()`): ASCII whitespace `[ \t\n\r\x0b\x0c]`,
the file/group/record/unit separators, NEL, NBSP and the Unicode space
characters. -/
def pyWs (c : Char) : Bool :=
  let n := c.toNat
  n == 32 || n == 9 || n == 10 || n == 13 || n == 11 || n == 12 ||
  n == 28 || n == 29 || n == 30 || n == 31 || n == 133 || n == 160 ||
  n == 0x1680 || (0x2000 ≤ n && n ≤ 0x200a) ||
  n == 0x2028 || n == 0x2029 || n == 0x202f || n == 0x205f || n == 0x3000

/-- `str.lower()` (ASCII range). -/
def lowerStr (s : Str) : Str := s.map Char.toLower

/-- One pass of `re.sub(r"\s+", " ", s)`: every maximal run of whitespace
becomes a single space. -/
def collapseWs : Str → Str
  | [] => []
  | c :: cs =>
    if pyWs c then
      match cs with
      | [] => [' ']
      | c2 :: cs2 => if pyWs c2 then collapseWs (c2 :: cs2) else ' ' :: collapseWs (c2 :: cs2)
    else c :: collapseWs cs

/-- Python `str.strip()`: drop whitespace from both ends. -/
def pyStrip (s : Str) : Str :=
  ((s.dropWhile pyWs).reverse.dropWhile pyWs).reverse

/-- `canon` (app.py line 18-19): `re.sub(r"\s+", " ", str(s or "")).strip()`.
`None` is coerced to the empty string at the call boundary. -/
def canon (s : Str) : Str := pyStrip (collapseWs s)

/-- `keyify` (app.py line 21-22):
`(str(brand or "") + "|" + str(pname or "") + "|" + str(ptype or "")).strip().lower()`.
Note the strip/lowercase applies to the joined string as a whole; the
individual fields are NOT canonicalized here. -/
def keyify (brand pname ptype : Str) : Str :=
  lowerStr (pyStrip (brand ++ '|' :: pname ++ '|' :: ptype))

/-- Python `int()` applied to a (modelled-as-rational) float: truncation
toward zero. -/
def pyInt (q : ℚ) : ℤ := if 0 ≤ q then ⌊q⌋ else ⌈q⌉

/-- Python 3 `round` to an integer: round-half-to-even on the exact value. -/
def roundHalfEven (x : ℚ) : ℤ :=
  let f := ⌊x⌋
  let r := x - f
  if r < 1/2 then f
  else if 1/2 < r then f + 1
  else if f % 2 = 0 then f else f + 1

/-- `round(x, 3)` as used on rank rows (app.py line 213), on the exact value. -/
def roundQ3 (x : ℚ) : ℚ := (roundHalfEven (x * 1000) : ℚ) / 1000

/-- `Series.nunique()`: the number of distinct (non-null) values. -/
def countDistinct {α : Type} [DecidableEq α] (l : List α) : ℕ := l.toFinset.card

/-- `pandas` median of a list of numbers: sort; middle element for odd
length, mean of the two middle elements for even length. (Only ever applied
to nonempty lists in the code; the empty case is guarded upstream.) -/
def medianQ (l : List ℚ) : ℚ :=
  let s := l.insertionSort (fun a b => a ≤ b)
  let n := s.length
  if n % 2 = 1 then s.getD (n / 2) 0
  else (s.getD (n / 2 - 1) 0 + s.getD (n / 2) 0) / 2

-- Basic sanity examples for the normalizer layer (concrete evaluation).
example : canon "  a   b ".toList = "a b".toList := by decide
example : keyify "Urban Decay".toList "Naked3".toList "Palette".toList
    = "urban decay|naked3|palette".toList := by decide
example : pyInt (699/10) = 69 := by norm_num [pyInt]
example : medianQ [3, 1, 2] = 2 := by
  norm_num [medianQ, List.insertionSort, List.orderedInsert]
example : medianQ [4, 1, 2, 3] = 5/2 := by
  norm_num [medianQ, List.insertionSort, List.orderedInsert]

/-! ## Catalog index (app.py lines 57-67) -/

/-- A raw catalog row: columns `Brand, Product Name, Product Type, Category Group`. -/
structure CatRow where
  brand : Str
  pname : Str
  ptype : Str
  cgroup : Str
deriving DecidableEq

/-- A loaded catalog entry with the derived normalized columns
(`Brand_n`, `Product Name_n`, `Product Type_n`, `Category Group_n`,
`prod_l`, `brand_l`). -/
structure CatEntry where
  brand_n : Str
  pname_n : Str
  ptype_n : Str
  cgroup_n : Str
  prod_l : Str
  brand_l : Str
deriving DecidableEq

/-- Catalog normalization (app.py lines 62-67): canonicalize each field;
`prod_l = canon(lower(Product Name_n + " " + Product Type_n))`;
`brand_l = lower(Brand_n)`. -/
def mkCatEntry (r : CatRow) : CatEntry :=
  let bn := canon r.brand
  let pn := canon r.pname
  let tn := canon r.ptype
  let gn := canon r.cgroup
  { brand_n := bn, pname_n := pn, ptype_n := tn, cgroup_n := gn,
    prod_l := canon (lowerStr (pn ++ ' ' :: tn)),
    brand_l := lowerStr bn }

/-- `load` of the catalog: normalize every row. -/
def loadCatalog (rows : List CatRow) : List CatEntry := rows.map mkCatEntry

/-! ## Content index (app.py lines 69-97, 194-196) -/

/-- One normalized content mention (after loading and after
`df["sec"] = df["time"].map(to_float)` at line 195): `sec = none` models a
NaN / missing / non-numeric timestamp, `step = none` models a NaN step cell. -/
structure Mention where
  videoId : Str
  title : Str
  step : Option Str
  brand : Str
  product : Str
  product_type : Str
  shade : Str
  key : Str
  sec : Option ℚ
deriving DecidableEq

/-- A raw content row. The numeric-cell model: `time` is the value of
`to_float` on the raw `time_start` / `chunk_start` cell, i.e. `none` for a
missing or non-numeric value and `some q` for a numeric one. `step` is the
raw step cell (`none` = NaN). -/
structure RawContentRow where
  videoId : Str
  brand : Str
  product : Str
  product_type : Str
  shade : Str
  title : Str
  step : Option Str
  time : Option ℚ
deriving DecidableEq

/-- A raw content table: the rows together with which optional columns are
present in the header. -/
structure RawContent where
  hasTitle : Bool
  hasStep : Bool
  rows : List RawContentRow
deriving DecidableEq

/-- A loaded content table (either schema), remembering whether the `step`
column is present (it always is after loading: a missing column is
materialized as all-empty, lines 82 / 93). -/
structure ContentTable where
  hasStep : Bool
  mentions : List Mention
deriving DecidableEq

/-- Loading one row, shared by both schemas (app.py lines 76-83 and 87-95):
`key = keyify(brand, product, product_type)` on the RAW (un-canonicalized)
fields; `title` defaults to `videoId` when the column is absent; `step`
becomes the empty string when the column is absent. -/
def loadContentRow (hasTitle hasStep : Bool) (r : RawContentRow) : Mention :=
  { videoId := r.videoId,
    title := if hasTitle then r.title else r.videoId,
    step := if hasStep then r.step else some [],
    brand := r.brand,
    product := r.product,
    product_type := r.product_type,
    shade := r.shade,
    key := keyify r.brand r.product r.product_type,
    sec := r.time }

/-- Loading the routine-schema content table (app.py lines 72-83). -/
def loadRoutine (raw : RawContent) : ContentTable :=
  { hasStep := true,
    mentions := raw.rows.map (loadContentRow raw.hasTitle raw.hasStep) }

/-- Loading the mention-schema content table (app.py lines 84-95): the same
key/time/title/step treatment, with `Brand`/`Product Name`/`Product Type`/
`chunk_start` as the source columns (already mapped into `RawContentRow`),
then renamed into the routine vocabulary. -/
def loadMentions (raw : RawContent) : ContentTable :=
  { hasStep := true,
    mentions := raw.rows.map (loadContentRow raw.hasTitle raw.hasStep) }

/-! ## Kit table and column resolution (app.py lines 121-128) -/

/-- A kit row: cells addressed by column name (missing cell = empty). -/
def Row := List (Str × Str)

/-- Cell access in a row. -/
def getCell (r : Row) (c : Str) : Str := ((r.lookup c).getD [])

/-- The uploaded kit table: a header (column names) and rows. -/
structure Table where
  cols : List Str
  rows : List Row

/-- `find_col` (app.py lines 121-128): first an exact pass over the wanted
names, then a case-insensitive pass; the case-insensitive dict
`{c.lower(): c for c in df.columns}` maps a lowercase name to the LAST
column bearing it. -/
def find_col (cols : List Str) (names : List Str) : Option Str :=
  match names.find? (fun n => cols.contains n) with
  | some n => some n
  | none =>
    match names.find? (fun n => cols.any (fun c => lowerStr c == lowerStr n)) with
    | some n => (cols.filter (fun c => lowerStr c == lowerStr n)).getLast?
    | none => none

example : find_col ["marke".toList, "PRODUCT".toList] ["Product Name".toList, "Product".toList]
    = some "PRODUCT".toList := by decide
example : find_col ["Brand".toList] ["Brand".toList] = some "Brand".toList := by decide
example : find_col ["Marke".toList] ["Brand".toList] = none := by decide

/-! ## Fuzzy matcher (app.py lines 130-173) -/

/-- One row of the match output table, key column included (line 171). -/
structure MatchResult where
  brand : Str
  pname : Str
  ptype : Str
  shade : Str
  mBrand : Str
  mPname : Str
  mPtype : Str
  mCgroup : Str
  score : ℤ
  key : Str
deriving DecidableEq

/-- Scan of the remaining choices keeping the current best; a later choice
replaces the best only when its score is strictly greater, so the FIRST
maximal choice wins (rapidfuzz `process.extractOne` tie behavior). -/
def extractBest (scorer : Str → Str → ℚ) (q : Str) : Str × ℚ → List Str → Str × ℚ
  | best, [] => best
  | best, c :: cs =>
    if best.2 < scorer q c then extractBest scorer q (c, scorer q c) cs
    else extractBest scorer q best cs

/-- `process.extractOne(query, choices, scorer)`: `none` on an empty choice
list, otherwise the first best-scoring choice with its score. The scorer
(rapidfuzz `fuzz.token_set_ratio`) is an external collaborator and is a
parameter of the model. -/
def extractOne (scorer : Str → Str → ℚ) (q : Str) : List Str → Option (Str × ℚ)
  | [] => none
  | c :: cs => some (extractBest scorer q (c, scorer q c) cs)

/-- Candidate pool selection (app.py lines 147-149): the brand partition, or
the full catalog when no entry shares the brand. -/
def poolFor (cat : List CatEntry) (brand_l : Str) : List CatEntry :=
  let pool0 := cat.filter (fun e => e.brand_l == brand_l)
  if pool0.isEmpty then cat else pool0

/-- Matching a single kit row (app.py lines 146-169 plus the key column of
line 171): normalize the row, pick the brand pool (full catalog when the
brand pool is empty), run the scorer over the pool's `prod_l` strings, and
record the first catalog row carrying the matched string (`iloc[0]`).
`score = int(res[1])` truncates the similarity to an integer. -/
def matchRow (scorer : Str → Str → ℚ) (cat : List CatEntry)
    (bcol pcol : Str) (tcol scol : Option Str) (r : Row) : MatchResult :=
  let brand_n := canon (getCell r bcol)
  let pname_n := canon (getCell r pcol)
  let ptype_n := match tcol with | some c => canon (getCell r c) | none => []
  let shade_n := match scol with | some c => canon (getCell r c) | none => []
  let query_l := canon (lowerStr (pname_n ++ ' ' :: ptype_n))
  let brand_l := lowerStr brand_n
  let pool := poolFor cat brand_l
  match extractOne scorer query_l (pool.map (fun e => e.prod_l)) with
  | some ms =>
    match pool.find? (fun e => e.prod_l == ms.1) with
    | some crow =>
      { brand := brand_n, pname := pname_n, ptype := ptype_n, shade := shade_n,
        mBrand := crow.brand_n, mPname := crow.pname_n, mPtype := crow.ptype_n,
        mCgroup := crow.cgroup_n, score := pyInt ms.2,
        key := keyify crow.brand_n crow.pname_n crow.ptype_n }
    | none =>
      -- unreachable: the matched string is drawn from the pool itself
      { brand := brand_n, pname := pname_n, ptype := ptype_n, shade := shade_n,
        mBrand := [], mPname := [], mPtype := [], mCgroup := [], score := 0,
        key := keyify [] [] [] }
  | none =>
    { brand := brand_n, pname := pname_n, ptype := ptype_n, shade := shade_n,
      mBrand := [], mPname := [], mPtype := [], mCgroup := [], score := 0,
      key := keyify [] [] [] }

/-- The error taxonomy of the matcher: `ValueError` for a kit missing a
required column (InvalidInput). -/
inductive MatchErr where
  | invalidInput
deriving DecidableEq

/-- `match_kit_to_catalog` (app.py lines 130-173): resolve the four columns,
fail when brand or product-name is unresolved, otherwise produce the full
result list and its subset with `Match Score >= min_score`. -/
def match_kit_to_catalog (scorer : Str → Str → ℚ) (kit : Table)
    (cat : List CatEntry) (min_score : ℤ) :
    Except MatchErr (List MatchResult × List MatchResult) :=
  let bcol := find_col kit.cols ["Brand".toList]
  let pcol := find_col kit.cols ["Product Name".toList, "Product".toList]
  let tcol := find_col kit.cols ["Product Type".toList, "Type".toList]
  let scol := find_col kit.cols ["Shade Name".toList, "Shade".toList]
  match bcol, pcol with
  | some b, some p =>
    let out := kit.rows.map (matchRow scorer cat b p tcol scol)
    .ok (out, out.filter (fun row => decide (min_score ≤ row.score)))
  | _, _ => .error .invalidInput

/-! ## Ranking engine (app.py lines 198-214) -/

/-- One aggregated row of the rank table (line 213): `coverage` and `score`
are stored through `round(·, 3)`. -/
structure RankRow where
  videoId : Str
  title : Str
  used_items : ℕ
  used_steps : ℕ
  coverage : ℚ
  score : ℚ
deriving DecidableEq

/-- Line 208: `g.get("step","").nunique() if "step" in g.columns else used`.
`nunique` counts distinct non-null values. -/
def stepsCount (hasStepCol : Bool) (g : List Mention) (used : ℕ) : ℕ :=
  if hasStepCol then countDistinct (g.filterMap (fun m => m.step)) else used

/-- The `0.3*(steps/10)` term of the score (line 212). -/
def stepsTerm (steps : ℕ) : ℚ := 3/10 * ((steps : ℚ) / 10)

/-- Lines 210-211: `1.15` when the group has at least one defined timestamp
whose median is below 600 seconds, else `1.0`. -/
def earlyBoost (g : List Mention) : ℚ :=
  let early := g.filterMap (fun m => m.sec)
  if ¬ early.isEmpty ∧ medianQ early < 600 then 115/100 else 1

/-- Lines 205-213, one group: aggregate a video's hit group into a rank row. -/
def rankRow (hasStepCol : Bool) (ownedCount : ℕ) (vid : Str) (g : List Mention) :
    RankRow :=
  let used := countDistinct (g.map (fun m => m.key))
  let steps := stepsCount hasStepCol g used
  let coverage : ℚ := (used : ℚ) / (max 1 ownedCount : ℕ)
  let score := (7/10 * coverage + stepsTerm steps) * earlyBoost g
  { videoId := vid, title := ((g.head?).map (fun m => m.title)).getD [],
    used_items := used, used_steps := steps,
    coverage := roundQ3 coverage, score := roundQ3 score }

/-- First-seen order of distinct values (`groupby(..., sort=False)`). -/
def firstSeen : List Str → List Str
  | [] => []
  | a :: t => a :: firstSeen (t.filter (fun x => x ≠ a))
termination_by l => l.length
decreasing_by
  simp only [List.length_cons]
  exact Nat.lt_succ_of_le (List.length_filter_le _ _)

/-- The ranking stage's outcome: the NoOverlap terminal state (lines
199-201, a warning plus `st.stop()`) or a ranked table. -/
inductive RankOutcome where
  | noOverlap
  | ranked (rows : List RankRow)
deriving DecidableEq

/-- Lines 198-214: keep the mentions whose key is owned; stop with
NoOverlap when none is; otherwise aggregate per video (first-seen group
order) and sort by score, ties by used_items, both descending. -/
def rankVideos (ct : ContentTable) (owned : Finset Str) : RankOutcome :=
  let hits := ct.mentions.filter (fun m => decide (m.key ∈ owned))
  if hits.isEmpty then .noOverlap
  else
    let vids := firstSeen (hits.map (fun m => m.videoId))
    let rows := vids.map (fun v =>
      rankRow ct.hasStep owned.card v (hits.filter (fun m => m.videoId == v)))
    .ranked (rows.insertionSort (fun a b =>
      b.score < a.score ∨ (a.score = b.score ∧ b.used_items ≤ a.used_items)))

/-! ## Complementary-item resolver (app.py lines 246-254) -/

/-- The sort key of line 251: the timestamp, with an undefined timestamp
mapped to the sentinel `9e9`. -/
def sortKeyOf (m : Mention) : ℚ := m.sec.getD (9 * 10 ^ 9)

/-- The dedup loop of lines 250-254: keep the first occurrence of each key. -/
def dedupFirstByKey : List Mention → List Str → List Mention
  | [], _ => []
  | d :: rest, seen =>
    if d.key ∈ seen then dedupFirstByKey rest seen
    else d :: dedupFirstByKey rest (d.key :: seen)

/-- Lines 246-254: the video's mentions (original row order) whose key is
not owned, sorted ascending by `sortKeyOf` (Python's `sorted` is stable and
so is this insertion sort), then deduplicated by key keeping the first. -/
def comps (allMentions : List Mention) (vid : Str) (owned : Finset Str) :
    List Mention :=
  let group := allMentions.filter (fun m => m.videoId == vid)
  let cs := group.filter (fun d => decide (d.key ∉ owned))
  dedupFirstByKey (cs.insertionSort (fun a b => sortKeyOf a ≤ sortKeyOf b)) []

instance : IsTotal Mention (fun a b => sortKeyOf a ≤ sortKeyOf b) :=
  ⟨fun x y => le_total (sortKeyOf x) (sortKeyOf y)⟩

instance : IsTrans Mention (fun a b => sortKeyOf a ≤ sortKeyOf b) :=
  ⟨fun _ _ _ h1 h2 => le_trans h1 h2⟩

/-! ## Concrete test data for witnesses and counterexamples -/

/-- Mention constructor for concrete test data (only the fields the
ranking/resolver layers inspect vary). -/
def mkM (vid key : Str) (step : Option Str) (sec : Option ℚ) : Mention :=
  { videoId := vid, title := [], step := step, brand := [], product := [],
    product_type := [], shade := [], key := key, sec := sec }

/-- A hit group with one owned key and eleven distinct step labels. -/
def gElevenSteps : List Mention :=
  (List.range 11).map (fun i => mkM "v".toList "k".toList (some [Char.ofNat (97 + i)]) none)

/-- A hit group with one mention, an empty step label and no timestamp. -/
def gOneThird : List Mention := [mkM "v".toList "k".toList (some "s".toList) none]

/-- A two-mention group, two distinct keys, both step cells empty strings. -/
def gEmptySteps : List Mention :=
  [mkM "v".toList "k1".toList (some []) none, mkM "v".toList "k2".toList (some []) none]

/-- Two non-owned mentions: the first with an undefined timestamp, the
second with a defined timestamp at 10^10 seconds, beyond the 9e9 sentinel. -/
def mUndef : Mention := mkM "v".toList "a".toList none none

/-- The defined-timestamp companion of `mUndef`. -/
def mHuge : Mention := mkM "v".toList "b".toList none (some (10 ^ 10))

/-- A one-entry demo catalog. -/
def demoCat : List CatEntry :=
  loadCatalog [{ brand := "Acme".toList, pname := "Lipstick".toList,
                 ptype := "Lip".toList, cgroup := "Lips".toList }]

/-- A one-row demo kit with exact required headers. -/
def demoKit : Table :=
  { cols := ["Brand".toList, "Product Name".toList],
    rows := [[("Brand".toList, "Acme".toList),
              ("Product Name".toList, "Lipstick".toList)]] }

/-- A constant external scorer returning similarity 69.9. -/
def scorer699 : Str → Str → ℚ := fun _ _ => 699 / 10

/-- A constant external scorer returning similarity 65. -/
def scorer65 : Str → Str → ℚ := fun _ _ => 65

/-! ## General helper lemmas -/

/-- Strengthening the filter predicate never lengthens the result. -/
theorem length_filter_mono {α : Type} (p q : α → Bool) (l : List α)
    (h : ∀ a, q a = true → p a = true) :
    (l.filter q).length ≤ (l.filter p).length := by
  induction l with
  | nil => simp
  | cons a t ih =>
    simp only [List.filter_cons]
    by_cases hq : q a = true
    · rw [if_pos hq, if_pos (h a hq)]
      simpa using ih
    · rw [if_neg hq]
      by_cases hp : p a = true
      · rw [if_pos hp]
        exact ih.trans (Nat.le_succ _)
      · rw [if_neg hp]
        exact ih

/-! ## Claim theorems -/

/-- Claim C6: the ranking stage reports the NoOverlap terminal state exactly
when no content mention's key lies in the owned-key set (in particular for an
empty owned-key set against any content); it produces a ranking only when at
least one mention's key is owned. -/
theorem rank_noOverlap_iff (ct : ContentTable) (owned : Finset Str) :
    rankVideos ct owned = RankOutcome.noOverlap ↔ ∀ m ∈ ct.mentions, m.key ∉ owned := by
  simp only [rankVideos]
  by_cases h : (List.filter (fun m => decide (m.key ∈ owned)) ct.mentions).isEmpty
  · rw [if_pos h]
    simp only [true_iff]
    rw [List.isEmpty_iff, List.filter_eq_nil_iff] at h
    intro m hm
    simpa using h m hm
  · rw [if_neg h]
    simp only [reduceCtorEq, false_iff, not_forall]
    rw [List.isEmpty_iff, ← ne_eq] at h
    obtain ⟨m, hm⟩ := List.exists_mem_of_ne_nil _ h
    rw [List.mem_filter] at hm
    exact ⟨m, hm.1, by simpa using hm.2⟩

/-- Claim C3 counterexample: a hit group with 11 distinct step labels (one
owned key) gets a score of 1.03: its `0.3 * (usedSteps / 10)` component is
0.33 > 0.3, so the steps contribution is NOT capped at the value reached at
10 distinct steps. -/
theorem steps_cap_counterexample :
    (rankRow true 1 "v".toList gElevenSteps).used_steps = 11 ∧
    3/10 < stepsTerm (rankRow true 1 "v".toList gElevenSteps).used_steps ∧
    (rankRow true 1 "v".toList gElevenSteps).score = 103/100 := by
  have hsteps : (rankRow true 1 "v".toList gElevenSteps).used_steps = 11 := by decide
  have hused : countDistinct (gElevenSteps.map (fun m => m.key)) = 1 := by decide
  have hboost : earlyBoost gElevenSteps = 1 := by
    simp only [earlyBoost]
    rw [if_neg]
    rintro ⟨h1, -⟩
    exact h1 (by decide)
  refine ⟨hsteps, ?_, ?_⟩
  · rw [hsteps, stepsTerm]
    norm_num
  · have hsc : stepsCount true gElevenSteps 1 = 11 := by decide
    simp only [rankRow, hused, hsc, hboost, stepsTerm]
    norm_num [roundQ3, roundHalfEven]

/-- Claim C3 (amended): the `0.3 * (usedSteps / 10)` component of the score
is not capped: it exceeds 0.3 exactly when the group has more than 10
distinct steps, reaching 0.3 at exactly 10. -/
theorem stepsTerm_uncapped (n : ℕ) :
    (3/10 < stepsTerm n ↔ 10 < n) ∧ stepsTerm 10 = 3/10 := by
  constructor
  · rw [stepsTerm]
    constructor
    · intro h
      by_contra hn
      push_neg at hn
      have : (n : ℚ) ≤ 10 := by exact_mod_cast hn
      nlinarith
    · intro h
      have : (10 : ℚ) < n := by exact_mod_cast h
      nlinarith
  · rw [stepsTerm]
    norm_num

/-- Claim C7: for a fixed scorer, kit and catalog, the accepted list is
exactly the sublist of all results whose integer score is at least the
threshold, and raising the threshold never increases the accepted count. -/
theorem match_threshold_monotone (scorer : Str → Str → ℚ) (kit : Table)
    (cat : List CatEntry) (t1 t2 : ℤ) (hle : t1 ≤ t2)
    (all1 keep1 all2 keep2 : List MatchResult)
    (h1 : match_kit_to_catalog scorer kit cat t1 = .ok (all1, keep1))
    (h2 : match_kit_to_catalog scorer kit cat t2 = .ok (all2, keep2)) :
    all2 = all1 ∧
    keep1 = all1.filter (fun r => decide (t1 ≤ r.score)) ∧
    keep2 = all2.filter (fun r => decide (t2 ≤ r.score)) ∧
    keep2.length ≤ keep1.length := by
  simp only [match_kit_to_catalog] at h1 h2
  cases hb : find_col kit.cols ["Brand".toList] with
  | none => rw [hb] at h1; cases h1
  | some b =>
    cases hp : find_col kit.cols ["Product Name".toList, "Product".toList] with
    | none => rw [hb, hp] at h1; cases h1
    | some p =>
      rw [hb, hp] at h1 h2
      simp only [Except.ok.injEq, Prod.mk.injEq] at h1 h2
      obtain ⟨ha1, hk1⟩ := h1
      obtain ⟨ha2, hk2⟩ := h2
      subst ha1 ha2 hk1 hk2
      refine ⟨rfl, rfl, rfl, ?_⟩
      apply length_filter_mono
      intro a ha
      simp only [decide_eq_true_eq] at ha ⊢
      omega

/-- Whitespace-ness of a character is unchanged by lowercasing: `toLower`
only moves the range 65-90 to 97-122, and neither range contains a
whitespace code. -/
theorem pyWs_toLower (c : Char) : pyWs (Char.toLower c) = pyWs c := by
  rw [Char.toLower]
  split
  · rename_i h
    have h1 : 65 ≤ c.toNat := h.1
    have h2 : c.toNat ≤ 90 := h.2
    have hvalid : Nat.isValidChar (c.toNat + 32) := Or.inl (by omega)
    have hv : (Char.ofNat (c.toNat + 32)).toNat = c.toNat + 32 := by
      simp only [Char.ofNat]
      rw [dif_pos hvalid]
      rfl
    have hl : pyWs (Char.ofNat (c.toNat + 32)) = false := by
      simp only [pyWs, hv, Bool.or_eq_false_iff, beq_eq_false_iff_ne, ne_eq,
        Bool.and_eq_false_iff, decide_eq_false_iff_not, not_le]
      omega
    have hr : pyWs c = false := by
      simp only [pyWs, Bool.or_eq_false_iff, beq_eq_false_iff_ne, ne_eq,
        Bool.and_eq_false_iff, decide_eq_false_iff_not, not_le]
      omega
    rw [hl, hr]
  · rfl

/-- Lowercasing commutes with dropping leading whitespace. -/
theorem lowerStr_dropWhile (l : Str) :
    (l.dropWhile pyWs).map Char.toLower = (l.map Char.toLower).dropWhile pyWs := by
  have hfun : (pyWs ∘ Char.toLower) = pyWs := funext pyWs_toLower
  rw [List.dropWhile_map, hfun]

/-- Lowercasing commutes with `strip`. -/
theorem lowerStr_pyStrip (s : Str) : lowerStr (pyStrip s) = pyStrip (lowerStr s) := by
  simp only [pyStrip, lowerStr]
  rw [List.map_reverse, lowerStr_dropWhile, List.map_reverse, lowerStr_dropWhile]

/-- Claim C1 counterexample: two records whose (brand, product, type) fields
are identical after normalization (`canon`) — here brands differing only in
internal whitespace — receive DIFFERENT composite keys, because `keyify`
does not canonicalize its fields. -/
theorem compositeKey_counterexample :
    canon "a  b".toList = canon "a b".toList ∧
    keyify "a  b".toList "x".toList "y".toList ≠
      keyify "a b".toList "x".toList "y".toList := by
  decide

/-- Claim C1 (amended): `keyify` joins the raw fields with `|`, then trims
only the outer ends of the joined string and lowercases it; consequently the
key is invariant under changes of character CASE in the fields (records
equal up to case always share a key), but not under internal-whitespace
differences. -/
theorem keyify_case_invariant (b p t b' p' t' : Str)
    (hb : lowerStr b = lowerStr b') (hp : lowerStr p = lowerStr p')
    (ht : lowerStr t = lowerStr t') :
    keyify b p t = keyify b' p' t' := by
  rw [keyify, keyify, lowerStr_pyStrip, lowerStr_pyStrip]
  simp only [lowerStr] at hb hp ht
  simp only [lowerStr, List.map_append, List.map_cons]
  rw [hb, hp, ht]

/-- Claim C1 witness: concrete case-variant records share a key. -/
theorem keyify_case_invariant_witness :
    lowerStr "Urban Decay".toList = lowerStr "URBAN decay".toList ∧
    lowerStr "Naked3".toList = lowerStr "naked3".toList ∧
    lowerStr "Palette".toList = lowerStr "PALETTE".toList ∧
    keyify "Urban Decay".toList "Naked3".toList "Palette".toList =
      keyify "URBAN decay".toList "naked3".toList "PALETTE".toList :=
  ⟨by decide, by decide, by decide,
   keyify_case_invariant _ _ _ _ _ _ (by decide) (by decide) (by decide)⟩

/-- Claim C4 counterexample: a ranked group whose step cells all hold the
empty string (no step has any value) and which uses 2 distinct keys gets
`used_steps = 1` (the distinct count over the all-empty column), NOT
`used_steps = used_items = 2` as the claim's fallback clause states. -/
theorem usedSteps_fallback_counterexample :
    (∀ m ∈ gEmptySteps, m.step = some []) ∧
    (rankRow true 2 "v".toList gEmptySteps).used_items = 2 ∧
    (rankRow true 2 "v".toList gEmptySteps).used_steps = 1 := by
  refine ⟨by decide, by decide, by decide⟩

/-- Claim C4 (amended): `used_steps` is the distinct count of the non-missing
step values of the group; the fallback to `used_items` applies only when the
content table lacks a `step` column, which loading prevents: both loaders
materialize a `step` column (an absent column becomes all-empty strings), so
in the pipeline the fallback is unreachable. -/
theorem usedSteps_distinct_count (raw raw2 : RawContent) (ownedCount : ℕ)
    (vid : Str) (g : List Mention) :
    (loadRoutine raw).hasStep = true ∧ (loadMentions raw2).hasStep = true ∧
    (rankRow true ownedCount vid g).used_steps =
      countDistinct (g.filterMap (fun m => m.step)) :=
  ⟨rfl, rfl, rfl⟩

/-- Claim C2 counterexample: for a group with one owned mention out of an
owned-key set of size 3 (coverage 1/3, one step, no timestamps, boost 1),
the recorded score is NOT `(0.7*coverage + 0.3*(usedSteps/10)) * earlyBoost
= 79/300`: the code stores that quantity rounded to 3 decimal places
(`round(score, 3)` = 0.263). -/
theorem score_formula_counterexample :
    (rankRow true 3 "v".toList gOneThird).used_items = 1 ∧
    (rankRow true 3 "v".toList gOneThird).used_steps = 1 ∧
    earlyBoost gOneThird = 1 ∧
    (rankRow true 3 "v".toList gOneThird).score ≠
      (7/10 * ((1 : ℚ) / (max 1 3 : ℕ)) + 3/10 * ((1 : ℚ) / 10)) * 1 := by
  have hused : countDistinct (gOneThird.map (fun m => m.key)) = 1 := by decide
  have hsc : stepsCount true gOneThird 1 = 1 := by decide
  have hboost : earlyBoost gOneThird = 1 := by
    simp only [earlyBoost]
    rw [if_neg]
    rintro ⟨hne, -⟩
    exact hne (by decide)
  refine ⟨by decide, by decide, hboost, ?_⟩
  simp only [rankRow, hused, hsc, hboost, stepsTerm]
  norm_num [roundQ3, roundHalfEven]

/-- Claim C2 (amended): the recorded ranking score of every video group
equals `(0.7 * coverage + 0.3 * (usedSteps / 10)) * earlyBoost` ROUNDED to
three decimal places, where `coverage = usedItems / max(1, ownedCount)`,
`usedItems` is the distinct-key count, `earlyBoost` is 1.15 when the group
has at least one defined timestamp and the median of the defined timestamps
is strictly below 600 seconds and 1.0 otherwise (absent timestamps excluded
from the median). -/
theorem score_formula (hasStep : Bool) (ownedCount : ℕ) (vid : Str)
    (g : List Mention) :
    (rankRow hasStep ownedCount vid g).score =
      roundQ3 ((7/10 * ((countDistinct (g.map (fun m => m.key)) : ℚ)
            / (max 1 ownedCount : ℕ))
          + 3/10 * ((stepsCount hasStep g (countDistinct (g.map (fun m => m.key))) : ℚ)
            / 10))
        * (if ¬ (g.filterMap (fun m => m.sec)).isEmpty ∧
              medianQ (g.filterMap (fun m => m.sec)) < 600
           then 115/100 else 1)) := rfl

/-- `find_col` resolves no column exactly when no header column matches any
of the wanted names case-insensitively (an exact match is a special case of
a case-insensitive match). -/
theorem find_col_eq_none_iff (cols names : List Str) :
    find_col cols names = none ↔
      ∀ n ∈ names, ∀ c ∈ cols, lowerStr c ≠ lowerStr n := by
  rw [find_col]
  cases h1 : names.find? (fun n => cols.contains n) with
  | some n =>
    simp only [reduceCtorEq, false_iff, not_forall]
    have hn := List.mem_of_find?_eq_some h1
    have hp := List.find?_some h1
    rw [List.contains_iff_exists_mem_beq] at hp
    obtain ⟨c, hc, hcn⟩ := hp
    obtain rfl : n = c := by simpa using hcn
    exact ⟨n, hn, n, hc, fun h => h rfl⟩
  | none =>
    cases h2 : names.find? (fun n => cols.any (fun c => lowerStr c == lowerStr n)) with
    | some n =>
      have hp := List.find?_some h2
      rw [List.any_eq_true] at hp
      obtain ⟨c, hc, hcn⟩ := hp
      have hcn' : lowerStr c = lowerStr n := by simpa using hcn
      constructor
      · intro hnone
        rw [List.getLast?_eq_none_iff, List.filter_eq_nil_iff] at hnone
        exact absurd (by simpa using hcn') (hnone c hc)
      · intro hall
        exact absurd hcn' (hall n (List.mem_of_find?_eq_some h2) c hc)
    | none =>
      simp only [true_iff]
      intro n hn c hc heq
      have hno := List.find?_eq_none.mp h2 n hn
      rw [List.any_eq_true] at hno
      exact hno ⟨c, hc, by simpa using heq⟩

/-- Claim C8: the kit-matching operation fails with InvalidInput exactly when,
after exact-name then case-insensitive alias resolution (alias "Product"
accepted for the product name), the kit's header has no brand column or no
product-name column; a failure produces no match results (the error carries
none). -/
theorem invalidInput_iff (scorer : Str → Str → ℚ) (kit : Table)
    (cat : List CatEntry) (t : ℤ) :
    match_kit_to_catalog scorer kit cat t = .error .invalidInput ↔
      ((¬ ∃ c ∈ kit.cols, lowerStr c = lowerStr "Brand".toList) ∨
       (¬ ∃ c ∈ kit.cols, lowerStr c = lowerStr "Product Name".toList ∨
          lowerStr c = lowerStr "Product".toList)) := by
  have hbrand : find_col kit.cols ["Brand".toList] = none ↔
      ¬ ∃ c ∈ kit.cols, lowerStr c = lowerStr "Brand".toList := by
    rw [find_col_eq_none_iff]
    simp
  have hpname : find_col kit.cols ["Product Name".toList, "Product".toList] = none ↔
      ¬ ∃ c ∈ kit.cols, lowerStr c = lowerStr "Product Name".toList ∨
        lowerStr c = lowerStr "Product".toList := by
    rw [find_col_eq_none_iff]
    constructor
    · rintro h ⟨c, hc, hcase⟩
      rcases hcase with h1 | h1
      · exact h _ (by simp) c hc h1
      · exact h _ (by simp) c hc h1
    · intro h n hn c hc heq
      simp only [List.mem_cons, List.mem_singleton, List.not_mem_nil, or_false] at hn
      exact h ⟨c, hc, by rcases hn with rfl | rfl; exact Or.inl heq; exact Or.inr heq⟩
  rw [match_kit_to_catalog]
  cases hb : find_col kit.cols ["Brand".toList] with
  | none =>
    simp only [true_iff]
    exact Or.inl (hbrand.mp hb)
  | some b =>
    cases hp : find_col kit.cols ["Product Name".toList, "Product".toList] with
    | none =>
      simp only [true_iff]
      exact Or.inr (hpname.mp hp)
    | some p =>
      simp only [reduceCtorEq, false_iff, not_or, not_not]
      constructor
      · by_contra hcon
        rw [← hbrand] at hcon
        rw [hb] at hcon
        exact absurd hcon (by simp)
      · by_contra hcon
        rw [← hpname] at hcon
        rw [hp] at hcon
        exact absurd hcon (by simp)

/-- The best-so-far scan reports a score that is the scorer's value on the
choice it reports. -/
theorem extractBest_snd (scorer : Str → Str → ℚ) (q : Str) (l : List Str) :
    ∀ best : Str × ℚ, best.2 = scorer q best.1 →
      (extractBest scorer q best l).2 = scorer q (extractBest scorer q best l).1 := by
  induction l with
  | nil => intro best h; exact h
  | cons c cs ih =>
    intro best h
    rw [extractBest]
    split
    · exact ih (c, scorer q c) rfl
    · exact ih best h

/-- The best-so-far scan reports either the running best or one of the
remaining choices. -/
theorem extractBest_fst_mem (scorer : Str → Str → ℚ) (q : Str) (l : List Str) :
    ∀ best : Str × ℚ, (extractBest scorer q best l).1 ∈ best.1 :: l := by
  induction l with
  | nil => intro best; exact List.mem_singleton.mpr rfl
  | cons c cs ih =>
    intro best
    rw [extractBest]
    split
    · rcases List.mem_cons.mp (ih (c, scorer q c)) with h | h
      · exact h ▸ List.mem_cons_of_mem _ (List.mem_cons_self _ _)
      · exact List.mem_cons_of_mem _ (List.mem_cons_of_mem _ h)
    · rcases List.mem_cons.mp (ih best) with h | h
      · exact h ▸ List.mem_cons_self _ _
      · exact List.mem_cons_of_mem _ (List.mem_cons_of_mem _ h)

/-- `extractOne` on a nonempty choice list returns a choice from the list
together with its own similarity. -/
theorem extractOne_some (scorer : Str → Str → ℚ) (q : Str) (l : List Str)
    (hl : l ≠ []) :
    ∃ m s, extractOne scorer q l = some (m, s) ∧ s = scorer q m ∧ m ∈ l := by
  cases l with
  | nil => exact absurd rfl hl
  | cons c cs =>
    refine ⟨(extractBest scorer q (c, scorer q c) cs).1,
            (extractBest scorer q (c, scorer q c) cs).2, rfl, ?_, ?_⟩
    · exact extractBest_snd scorer q cs (c, scorer q c) rfl
    · exact extractBest_fst_mem scorer q cs (c, scorer q c)

/-- The candidate pool is nonempty whenever the catalog is. -/
theorem poolFor_ne_nil (cat : List CatEntry) (b : Str) (hcat : cat ≠ []) :
    poolFor cat b ≠ [] := by
  rw [poolFor]
  by_cases h : (cat.filter (fun e => e.brand_l == b)).isEmpty
  · rw [if_pos h]; exact hcat
  · rw [if_neg h]
    rw [List.isEmpty_iff] at h
    exact h

/-- Against a nonempty catalog, every match row's score is some similarity
value truncated toward zero by `int()`. -/
theorem matchRow_score (scorer : Str → Str → ℚ) (cat : List CatEntry)
    (hcat : cat ≠ []) (bcol pcol : Str) (tcol scol : Option Str) (r : Row) :
    ∃ q c, (matchRow scorer cat bcol pcol tcol scol r).score = pyInt (scorer q c) := by
  simp only [matchRow]
  obtain ⟨m, s, hext, hs, hm⟩ :=
    extractOne_some scorer (canon (lowerStr (canon (getCell r pcol) ++ ' ' ::
      (match tcol with | some c => canon (getCell r c) | none => []))))
      ((poolFor cat (lowerStr (canon (getCell r bcol)))).map (fun e => e.prod_l))
      (by
        rw [ne_eq, List.map_eq_nil_iff]
        exact poolFor_ne_nil cat _ hcat)
  rw [hext]
  rw [List.mem_map] at hm
  obtain ⟨e, he, hep⟩ := hm
  cases hfind : (poolFor cat (lowerStr (canon (getCell r bcol)))).find?
      (fun en => en.prod_l == m) with
  | none =>
    exact absurd (List.find?_eq_none.mp hfind e he) (by simp [hep])
  | some crow =>
    subst hs
    exact ⟨_, m, by simp only [hfind]; rfl⟩

/-- Claim C10: against a nonempty catalog and a similarity scorer ranging in
[0,100], every recorded Match Score is the similarity value truncated to an
integer by `int()` and hence an integer in [0,100]; threshold acceptance
compares exactly this truncated integer (so a raw similarity of 69.9 is
truncated to 69 and rejected at threshold 70). -/
theorem match_score_truncated (scorer : Str → Str → ℚ) (kit : Table)
    (cat : List CatEntry) (t : ℤ) (all keep : List MatchResult)
    (hcat : cat ≠ [])
    (hs : ∀ q c, 0 ≤ scorer q c ∧ scorer q c ≤ 100)
    (hok : match_kit_to_catalog scorer kit cat t = .ok (all, keep)) :
    (∀ r ∈ all,
      (∃ q c, r.score = pyInt (scorer q c)) ∧ 0 ≤ r.score ∧ r.score ≤ 100) ∧
    keep = all.filter (fun r => decide (t ≤ r.score)) := by
  simp only [match_kit_to_catalog] at hok
  cases hb : find_col kit.cols ["Brand".toList] with
  | none => rw [hb] at hok; cases hok
  | some b =>
    cases hp : find_col kit.cols ["Product Name".toList, "Product".toList] with
    | none => rw [hb, hp] at hok; cases hok
    | some p =>
      rw [hb, hp] at hok
      simp only [Except.ok.injEq, Prod.mk.injEq] at hok
      obtain ⟨hall, hkeep⟩ := hok
      subst hall hkeep
      refine ⟨?_, rfl⟩
      intro r hr
      rw [List.mem_map] at hr
      obtain ⟨row, hrow, rfl⟩ := hr
      obtain ⟨q, c, hqc⟩ := matchRow_score scorer cat hcat b p
        (find_col kit.cols ["Product Type".toList, "Type".toList])
        (find_col kit.cols ["Shade Name".toList, "Shade".toList]) row
      refine ⟨⟨q, c, hqc⟩, ?_, ?_⟩
      · rw [hqc, pyInt, if_pos (hs q c).1]
        exact Int.floor_nonneg.mpr (hs q c).1
      · rw [hqc, pyInt, if_pos (hs q c).1]
        calc ⌊scorer q c⌋ ≤ ⌊(100 : ℚ)⌋ := Int.floor_le_floor (hs q c).2
          _ = 100 := by norm_num

/-- Claim C10 witness: a constant scorer reporting similarity 69.9 against a
concrete one-entry catalog and kit: all recorded scores are truncated
similarities in [0,100]; in particular `int(69.9) = 69`, which threshold 70
rejects. -/
theorem match_score_truncated_witness :
    demoCat ≠ [] ∧
    (∀ q c, 0 ≤ scorer699 q c ∧ scorer699 q c ≤ 100) ∧
    pyInt (699/10) = 69 ∧ ¬ ((70 : ℤ) ≤ pyInt (699/10)) ∧
    ∀ all keep,
      match_kit_to_catalog scorer699 demoKit demoCat 70 = .ok (all, keep) →
      (∀ r ∈ all,
        (∃ q c, r.score = pyInt (scorer699 q c)) ∧ 0 ≤ r.score ∧ r.score ≤ 100) ∧
      keep = all.filter (fun r => decide ((70 : ℤ) ≤ r.score)) :=
  ⟨by decide,
   fun q c => ⟨by norm_num [scorer699], by norm_num [scorer699]⟩,
   by norm_num [pyInt],
   by norm_num [pyInt],
   fun all keep hok =>
     match_score_truncated scorer699 demoKit demoCat 70 all keep (by decide)
       (fun q c => ⟨by norm_num [scorer699], by norm_num [scorer699]⟩) hok⟩

/-- The dedup loop keeps a subsequence of its input. -/
theorem dedupFirstByKey_sublist :
    ∀ (l : List Mention) (seen : List Str), List.Sublist (dedupFirstByKey l seen) l := by
  intro l
  induction l with
  | nil => intro seen; exact List.Sublist.refl _
  | cons d rest ih =>
    intro seen
    rw [dedupFirstByKey]
    split
    · exact (ih seen).cons _
    · exact (ih (d.key :: seen)).cons₂ _

/-- Membership in the dedup loop's output: exactly the first occurrence of
each key not already seen. -/
theorem mem_dedupFirstByKey (m : Mention) :
    ∀ (l : List Mention) (seen : List Str),
      m ∈ dedupFirstByKey l seen ↔
        (m.key ∉ seen ∧ l.find? (fun x => x.key == m.key) = some m) := by
  intro l
  induction l with
  | nil => intro seen; simp [dedupFirstByKey]
  | cons d rest ih =>
    intro seen
    rw [dedupFirstByKey]
    by_cases hk : d.key = m.key
    · have hpos : (fun x => x.key == m.key) d = true := by simp [hk]
      rw [@List.find?_cons_of_pos Mention (fun x => x.key == m.key) d rest hpos]
      by_cases hd : d.key ∈ seen
      · rw [if_pos hd, ih seen]
        constructor
        · rintro ⟨hns, hfind⟩
          exact absurd (hk ▸ hd) hns
        · rintro ⟨hns, hdm⟩
          exact absurd (hk ▸ hd) hns
      · rw [if_neg hd]
        constructor
        · intro hm
          rcases List.mem_cons.mp hm with rfl | hm
          · exact ⟨hk ▸ hd, rfl⟩
          · rw [ih (d.key :: seen)] at hm
            exact absurd (hk ▸ List.mem_cons_self _ _) hm.1
        · rintro ⟨hns, hdm⟩
          obtain rfl : d = m := by simpa using hdm
          exact List.mem_cons_self _ _
    · have hneg : ¬ ((fun x => x.key == m.key) d = true) := by simp [hk]
      rw [@List.find?_cons_of_neg Mention (fun x => x.key == m.key) d rest hneg]
      by_cases hd : d.key ∈ seen
      · rw [if_pos hd, ih seen]
      · rw [if_neg hd]
        constructor
        · intro hm
          rcases List.mem_cons.mp hm with rfl | hm
          · exact absurd rfl hk
          · rw [ih (d.key :: seen)] at hm
            exact ⟨fun hmem => hm.1 (List.mem_cons_of_mem _ hmem), hm.2⟩
        · rintro ⟨hns, hfind⟩
          apply List.mem_cons_of_mem
          rw [ih (d.key :: seen)]
          refine ⟨?_, hfind⟩
          intro hmem
          rcases List.mem_cons.mp hmem with heq | hmem
          · exact hk heq.symm
          · exact hns hmem

/-- The dedup loop's output carries no repeated key. -/
theorem dedupFirstByKey_keys_nodup :
    ∀ (l : List Mention) (seen : List Str),
      ((dedupFirstByKey l seen).map (fun m => m.key)).Nodup := by
  intro l
  induction l with
  | nil => intro seen; simp [dedupFirstByKey]
  | cons d rest ih =>
    intro seen
    rw [dedupFirstByKey]
    split
    · exact ih _
    · simp only [List.map_cons, List.nodup_cons]
      refine ⟨?_, ih _⟩
      rw [List.mem_map]
      rintro ⟨m, hm, hkey⟩
      rw [mem_dedupFirstByKey] at hm
      exact hm.1 (by rw [hkey]; exact List.mem_cons_self _ _)

/-- Claim C5 counterexample: with an undefined-timestamp mention and a
mention whose defined timestamp 10^10 exceeds the 9e9 sentinel, the
complementary list places the undefined-timestamp mention FIRST, before a
defined one — the claim's "undefined after all defined" ordering fails. -/
theorem comps_undef_order_counterexample :
    mUndef.sec = none ∧ mHuge.sec = some (10 ^ 10) ∧
    comps [mUndef, mHuge] "v".toList ∅ = [mUndef, mHuge] := by
  refine ⟨rfl, rfl, ?_⟩
  have hr : sortKeyOf mUndef ≤ sortKeyOf mHuge := by
    norm_num [sortKeyOf, mUndef, mHuge, mkM]
  show dedupFirstByKey
      (List.insertionSort (fun a b => sortKeyOf a ≤ sortKeyOf b) [mUndef, mHuge]) []
    = [mUndef, mHuge]
  rw [List.insertionSort, List.insertionSort, List.insertionSort,
    List.orderedInsert, List.orderedInsert, if_pos hr]
  rfl

/-- Claim C5 (amended): provided every defined timestamp is below the 9e9
sentinel used for undefined ones (true of any realistic video timestamp),
the complementary list of a video consists exactly of that video's mentions
whose key is not owned — each listed key occurs, every listed mention is
such a mention — with no repeated key, ordered ascending by timestamp with
undefined-timestamp mentions after all defined ones, each key keeping only
its first occurrence in the sorted order. -/
theorem comps_spec (items : List Mention) (vid : Str) (owned : Finset Str)
    (hbnd : ∀ m ∈ items, ∀ t : ℚ, m.sec = some t → t < 9 * 10 ^ 9) :
    (∀ m ∈ comps items vid owned, m ∈ items ∧ m.videoId = vid ∧ m.key ∉ owned) ∧
    ((comps items vid owned).map (fun m => m.key)).Nodup ∧
    (comps items vid owned).Pairwise
      (fun a b => ∀ ta tb : ℚ, a.sec = some ta → b.sec = some tb → ta ≤ tb) ∧
    (comps items vid owned).Pairwise (fun a b => a.sec = none → b.sec = none) ∧
    (∀ m ∈ items, m.videoId = vid → m.key ∉ owned →
      ∃ m' ∈ comps items vid owned, m'.key = m.key) ∧
    (∀ m ∈ comps items vid owned,
      (((items.filter (fun x => x.videoId == vid)).filter
          (fun d => decide (d.key ∉ owned))).insertionSort
        (fun a b => sortKeyOf a ≤ sortKeyOf b)).find? (fun x => x.key == m.key)
        = some m) := by
  have hcs : comps items vid owned =
      dedupFirstByKey
        (((items.filter (fun x => x.videoId == vid)).filter
            (fun d => decide (d.key ∉ owned))).insertionSort
          (fun a b => sortKeyOf a ≤ sortKeyOf b)) [] := rfl
  set cs := (items.filter (fun x => x.videoId == vid)).filter
      (fun d => decide (d.key ∉ owned)) with hcsdef
  set S := cs.insertionSort (fun a b => sortKeyOf a ≤ sortKeyOf b) with hSdef
  have hperm : List.Perm S cs := List.perm_insertionSort _ _
  have hsub : List.Sublist (comps items vid owned) S := hcs ▸ dedupFirstByKey_sublist S []
  have hmem_cs : ∀ m ∈ cs, m ∈ items ∧ m.videoId = vid ∧ m.key ∉ owned := by
    intro m hm
    rw [hcsdef, List.mem_filter, List.mem_filter] at hm
    refine ⟨hm.1.1, by simpa using hm.1.2, by simpa using hm.2⟩
  have hmem : ∀ m ∈ comps items vid owned, m ∈ items ∧ m.videoId = vid ∧ m.key ∉ owned := by
    intro m hm
    exact hmem_cs m (hperm.mem_iff.mp (hsub.subset hm))
  have hsorted : S.Pairwise (fun a b => sortKeyOf a ≤ sortKeyOf b) :=
    List.sorted_insertionSort _ cs
  have hsorted' : (comps items vid owned).Pairwise (fun a b => sortKeyOf a ≤ sortKeyOf b) :=
    hsorted.sublist hsub
  refine ⟨hmem, ?_, ?_, ?_, ?_, ?_⟩
  · rw [hcs]
    exact dedupFirstByKey_keys_nodup S []
  · refine hsorted'.imp ?_
    intro a b hab ta tb hta htb
    rw [sortKeyOf, sortKeyOf, hta, htb] at hab
    exact hab
  · refine List.Pairwise.imp_of_mem ?_ hsorted'
    intro a b ha hb hab hnone
    cases hsec : b.sec with
    | none => rfl
    | some tb =>
      have hblt := hbnd b (hmem b hb).1 tb hsec
      rw [sortKeyOf, sortKeyOf, hnone, hsec] at hab
      simp only [Option.getD_some, Option.getD_none] at hab
      exact absurd (lt_of_le_of_lt hab hblt) (lt_irrefl _)
  · intro m hmitems hvid howned
    have hmcs : m ∈ cs := by
      rw [hcsdef, List.mem_filter, List.mem_filter]
      exact ⟨⟨hmitems, by simpa using hvid⟩, by simpa using howned⟩
    have hmS : m ∈ S := hperm.mem_iff.mpr hmcs
    have hfind : (S.find? (fun x => x.key == m.key)).isSome := by
      rw [List.find?_isSome]
      exact ⟨m, hmS, by simp⟩
    obtain ⟨m', hm'⟩ := Option.isSome_iff_exists.mp hfind
    have hkey : m'.key = m.key := by simpa using List.find?_some hm'
    refine ⟨m', ?_, hkey⟩
    rw [hcs, mem_dedupFirstByKey]
    refine ⟨List.not_mem_nil _, ?_⟩
    have hfuneq : (fun x : Mention => x.key == m'.key) = (fun x : Mention => x.key == m.key) := by
      funext x
      rw [hkey]
    rw [hfuneq]
    exact hm'
  · intro m hm
    have := (mem_dedupFirstByKey m S []).mp (hcs ▸ hm)
    exact this.2

/-- Claim C5 witness: the amended complementary-list characterization at a
concrete one-mention input (whose only timestamp is undefined, so the bound
hypothesis holds vacuously). -/
theorem comps_spec_witness :
    (∀ m ∈ [mUndef], ∀ t : ℚ, m.sec = some t → t < 9 * 10 ^ 9) ∧
    ((∀ m ∈ comps [mUndef] "v".toList ∅,
        m ∈ [mUndef] ∧ m.videoId = "v".toList ∧ m.key ∉ (∅ : Finset Str)) ∧
     ((comps [mUndef] "v".toList ∅).map (fun m => m.key)).Nodup ∧
     (comps [mUndef] "v".toList ∅).Pairwise
       (fun a b => ∀ ta tb : ℚ, a.sec = some ta → b.sec = some tb → ta ≤ tb) ∧
     (comps [mUndef] "v".toList ∅).Pairwise (fun a b => a.sec = none → b.sec = none) ∧
     (∀ m ∈ [mUndef], m.videoId = "v".toList → m.key ∉ (∅ : Finset Str) →
       ∃ m' ∈ comps [mUndef] "v".toList ∅, m'.key = m.key) ∧
     (∀ m ∈ comps [mUndef] "v".toList ∅,
       ((([mUndef].filter (fun x => x.videoId == "v".toList)).filter
           (fun d => decide (d.key ∉ (∅ : Finset Str)))).insertionSort
         (fun a b => sortKeyOf a ≤ sortKeyOf b)).find? (fun x => x.key == m.key)
         = some m)) :=
  have hb : ∀ m ∈ [mUndef], ∀ t : ℚ, m.sec = some t → t < 9 * 10 ^ 9 := by
    intro m hm t ht
    rw [List.mem_singleton] at hm
    subst hm
    exact absurd ht (by simp [mUndef, mkM])
  ⟨hb, comps_spec [mUndef] "v".toList ∅ hb⟩

/-- Unfolding `collapseWs` on a single trailing whitespace character. -/
theorem collapseWs_singleton_pos (c : Char) (hc : pyWs c = true) :
    collapseWs [c] = [' '] := by
  rw [collapseWs.eq_def]
  simp only []
  rw [if_pos hc]

/-- Unfolding `collapseWs` inside a whitespace run. -/
theorem collapseWs_cons_cons_pos_pos (c c2 : Char) (cs2 : Str)
    (hc : pyWs c = true) (hc2 : pyWs c2 = true) :
    collapseWs (c :: c2 :: cs2) = collapseWs (c2 :: cs2) := by
  rw [collapseWs.eq_def]
  simp only []
  rw [if_pos hc, if_pos hc2]

/-- Unfolding `collapseWs` at the end of a whitespace run. -/
theorem collapseWs_cons_cons_pos_neg (c c2 : Char) (cs2 : Str)
    (hc : pyWs c = true) (hc2 : ¬ pyWs c2 = true) :
    collapseWs (c :: c2 :: cs2) = ' ' :: collapseWs (c2 :: cs2) := by
  rw [collapseWs.eq_def]
  simp only []
  rw [if_pos hc, if_neg hc2]

/-- Unfolding `collapseWs` on a non-whitespace head. -/
theorem collapseWs_cons_neg (c : Char) (cs : Str) (hc : ¬ pyWs c = true) :
    collapseWs (c :: cs) = c :: collapseWs cs := by
  rw [collapseWs.eq_def]
  cases cs with
  | nil => simp only []; rw [if_neg hc]
  | cons b t => simp only []; rw [if_neg hc]

/-- Every whitespace character surviving `collapseWs` is a plain space. -/
theorem collapseWs_spacedOk (l : Str) :
    ∀ c ∈ collapseWs l, pyWs c = true → c = ' ' := by
  induction l with
  | nil => intro c hc; cases hc
  | cons a t ih =>
    by_cases ha : pyWs a = true
    · cases t with
      | nil =>
        rw [collapseWs_singleton_pos a ha]
        intro c hc hw
        rcases List.mem_singleton.mp hc with rfl
        rfl
      | cons b t2 =>
        by_cases hb : pyWs b = true
        · rw [collapseWs_cons_cons_pos_pos a b t2 ha hb]
          exact ih
        · rw [collapseWs_cons_cons_pos_neg a b t2 ha hb]
          intro c hc hw
          rcases List.mem_cons.mp hc with rfl | hc
          · rfl
          · exact ih c hc hw
    · rw [collapseWs_cons_neg a t ha]
      intro c hc hw
      rcases List.mem_cons.mp hc with rfl | hc
      · exact absurd hw ha
      · exact ih c hc hw

/-- `collapseWs` leaves no two adjacent whitespace characters. -/
theorem collapseWs_chain (l : Str) :
    List.Chain' (fun a b => ¬ (pyWs a = true ∧ pyWs b = true)) (collapseWs l) := by
  induction l with
  | nil => exact List.chain'_nil
  | cons a t ih =>
    by_cases ha : pyWs a = true
    · cases t with
      | nil =>
        rw [collapseWs_singleton_pos a ha]
        exact List.chain'_singleton _
      | cons b t2 =>
        by_cases hb : pyWs b = true
        · rw [collapseWs_cons_cons_pos_pos a b t2 ha hb]
          exact ih
        · rw [collapseWs_cons_cons_pos_neg a b t2 ha hb]
          rw [List.chain'_cons']
          refine ⟨?_, ih⟩
          intro y hy
          rw [collapseWs_cons_neg b t2 hb, List.head?_cons] at hy
          obtain rfl := Option.some.inj hy
          rintro ⟨-, hyw⟩
          exact hb hyw
    · rw [collapseWs_cons_neg a t ha]
      rw [List.chain'_cons']
      refine ⟨?_, ih⟩
      intro y hy
      rintro ⟨haw, -⟩
      exact ha haw

/-- `collapseWs` is the identity on strings whose whitespace is single
plain spaces. -/
theorem collapseWs_id (l : Str)
    (hsp : ∀ c ∈ l, pyWs c = true → c = ' ')
    (hch : List.Chain' (fun a b => ¬ (pyWs a = true ∧ pyWs b = true)) l) :
    collapseWs l = l := by
  induction l with
  | nil => rfl
  | cons a t ih =>
    by_cases ha : pyWs a = true
    · cases t with
      | nil =>
        rw [collapseWs_singleton_pos a ha]
        rw [hsp a (List.mem_singleton.mpr rfl) ha]
      | cons b t2 =>
        by_cases hb : pyWs b = true
        · exact absurd ⟨ha, hb⟩ ((List.chain'_cons'.mp hch).1 b (List.head?_cons))
        · rw [collapseWs_cons_cons_pos_neg a b t2 ha hb]
          rw [ih (fun c hc hw => hsp c (List.mem_cons_of_mem _ hc) hw)
            (List.chain'_cons'.mp hch).2]
          rw [hsp a (List.mem_cons_self _ _) ha]
    · rw [collapseWs_cons_neg a t ha]
      rw [ih (fun c hc hw => hsp c (List.mem_cons_of_mem _ hc) hw)
        (List.chain'_cons'.mp hch).2]

/-- The head of a `dropWhile` never satisfies the dropped predicate. -/
theorem head?_dropWhile_not (p : Char → Bool) (l : Str) :
    ∀ c, (l.dropWhile p).head? = some c → p c = false := by
  induction l with
  | nil => intro c hc; cases hc
  | cons a t ih =>
    intro c hc
    by_cases ha : p a = true
    · rw [List.dropWhile_cons_of_pos ha] at hc
      exact ih c hc
    · rw [List.dropWhile_cons_of_neg ha, List.head?_cons] at hc
      obtain rfl := Option.some.inj hc
      simpa using ha

/-- `dropWhile` fixes a list whose head does not satisfy the predicate. -/
theorem dropWhile_eq_self_of_head (p : Char → Bool) (l : Str)
    (h : ∀ c, l.head? = some c → p c = false) : l.dropWhile p = l := by
  cases l with
  | nil => rfl
  | cons a t =>
    refine List.dropWhile_cons_of_neg ?_
    have := h a List.head?_cons
    simp [this]

/-- A nonempty `dropWhile` keeps the original last element. -/
theorem getLast?_dropWhile (p : Char → Bool) (z : Str)
    (hne : z.dropWhile p ≠ []) : (z.dropWhile p).getLast? = z.getLast? := by
  obtain ⟨t, ht⟩ := @List.dropWhile_suffix Char z p
  conv_rhs => rw [← ht]
  rw [List.getLast?_append_of_ne_nil _ hne]

/-- Stripping keeps only characters of the original string. -/
theorem pyStrip_subset (l : Str) : ∀ c ∈ pyStrip l, c ∈ l := by
  intro c hc
  rw [pyStrip, List.mem_reverse] at hc
  have h1 := (List.dropWhile_suffix pyWs).subset hc
  rw [List.mem_reverse] at h1
  exact (List.dropWhile_suffix pyWs).subset h1

/-- Stripping preserves the no-adjacent-whitespace invariant. -/
theorem chain'_pyStrip (l : Str)
    (h : List.Chain' (fun a b => ¬ (pyWs a = true ∧ pyWs b = true)) l) :
    List.Chain' (fun a b => ¬ (pyWs a = true ∧ pyWs b = true)) (pyStrip l) := by
  have flipped : ∀ x : Str,
      List.Chain' (fun a b => ¬ (pyWs a = true ∧ pyWs b = true)) x →
      List.Chain' (flip fun a b => ¬ (pyWs a = true ∧ pyWs b = true)) x :=
    fun x hx => List.Chain'.imp (fun a b hab hc => hab ⟨hc.2, hc.1⟩) hx
  rw [pyStrip, List.chain'_reverse]
  refine flipped _ ?_
  refine List.Chain'.suffix ?_ (List.dropWhile_suffix pyWs)
  rw [List.chain'_reverse]
  refine flipped _ ?_
  exact List.Chain'.suffix h (List.dropWhile_suffix pyWs)

/-- Stripping an already-stripped string changes nothing. -/
theorem pyStrip_idem (l : Str) : pyStrip (pyStrip l) = pyStrip l := by
  have hps : pyStrip l = ((l.dropWhile pyWs).reverse.dropWhile pyWs).reverse := rfl
  rcases eq_or_ne ((l.dropWhile pyWs).reverse.dropWhile pyWs) [] with hW | hW
  · rw [hps, hW]
    simp [pyStrip]
  · rw [hps]
    rw [pyStrip]
    have h1 : ((l.dropWhile pyWs).reverse.dropWhile pyWs).reverse.dropWhile pyWs
        = ((l.dropWhile pyWs).reverse.dropWhile pyWs).reverse := by
      apply dropWhile_eq_self_of_head
      intro c hc
      rw [List.head?_reverse] at hc
      rw [getLast?_dropWhile pyWs _ hW] at hc
      rw [List.getLast?_reverse] at hc
      exact head?_dropWhile_not pyWs l c hc
    rw [h1, List.reverse_reverse]
    congr 1
    apply dropWhile_eq_self_of_head
    intro c hc
    exact head?_dropWhile_not pyWs _ c hc

/-- Claim C9: the normalizer is idempotent: for every string (a null or
missing value having been coerced to the empty string before the call),
`canon (canon s) = canon s`, where `canon` collapses every whitespace run
to a single space and trims the ends. -/
theorem canon_idempotent (s : Str) : canon (canon s) = canon s := by
  simp only [canon]
  have hsp : ∀ c ∈ pyStrip (collapseWs s), pyWs c = true → c = ' ' :=
    fun c hc => collapseWs_spacedOk s c (pyStrip_subset _ c hc)
  have hch := chain'_pyStrip _ (collapseWs_chain s)
  rw [collapseWs_id _ hsp hch]
  exact pyStrip_idem _

/-- Claim C7 witness: a concrete scorer/kit/catalog at thresholds 60 ≤ 70:
the match succeeds, the accepted lists are the threshold filters of the full
list, and the accepted count does not increase. -/
theorem match_threshold_monotone_witness :
    (60 : ℤ) ≤ 70 ∧
    ∀ all1 keep1 all2 keep2,
      match_kit_to_catalog scorer65 demoKit demoCat 60 = .ok (all1, keep1) →
      match_kit_to_catalog scorer65 demoKit demoCat 70 = .ok (all2, keep2) →
      all2 = all1 ∧
      keep1 = all1.filter (fun r => decide ((60:ℤ) ≤ r.score)) ∧
      keep2 = all2.filter (fun r => decide ((70:ℤ) ≤ r.score)) ∧
      keep2.length ≤ keep1.length :=
  ⟨by norm_num,
   fun all1 keep1 all2 keep2 h1 h2 =>
     match_threshold_monotone scorer65 demoKit demoCat 60 70 (by norm_num)
       all1 keep1 all2 keep2 h1 h2⟩
